import Mathlib

/-!
# Verification of gogo's asset resolution and extraction pipeline

Shallow embedding of the core of `gogo` (Fusion/gogo), a command-line tool
that resolves release assets of GitHub repositories to platform-appropriate
binaries, downloads them, and extracts them into a target directory.

The embedding follows the Go source (`main.go`, latest version):
* the Go standard-library string primitives used by the code
  (`strings.Contains`, `strings.ToLower`, `strings.HasSuffix`,
  `strings.Split`, `filepath.Base`, `filepath.Join`) are modelled as
  executable Lean functions on `String`;
* the asset-matching loop of `doFetch` is modelled as a fold over the
  release asset list, threading the `candidateAsset`/`candidateStrength`
  state exactly as the labelled `assetLoop` does (including the
  `continue assetLoop` jumps for denylisted names and cross-architecture
  disqualification);
* the archive extraction loops of `writeTarballFile`/`writeTargzipFile`
  (identical after gzip decompression, which is byte-level and not
  modelled: an archive is taken as its parsed entry list) and
  `writeZipFile` are modelled as functions from entry lists to the list
  of file writes they perform;
* the Fetching-phase loop and the fetch-argument resolution of `doFetch`
  are modelled over explicit repository-status lists.

Strings are treated as sequences of characters; Go's `strings.ToLower`
is modelled as a character-wise lowercase map (the names involved are
ASCII). Machine integers: `candidateStrength` is a Go `uint8`; all values
it takes are `osIdx<<4 + archIdx ≤ 2*16+3 = 35 < 256`, so plain `Nat`
arithmetic is exact and is used.
-/

/-- Go `strings.Contains s sub`: `sub` occurs as a contiguous substring
of `s`. Modelled via `List.IsInfix` on the character lists. -/
def containsSubstr (s sub : String) : Bool :=
  decide (sub.data <:+: s.data)

/-- Go `strings.ToLower` restricted to ASCII, as used on asset names:
character-wise lowercasing. -/
def lowerStr (s : String) : String :=
  ⟨s.data.map Char.toLower⟩

/-- Go `strings.HasSuffix s suffix`. -/
def hasSuffix (s suffix : String) : Bool :=
  decide (suffix.data <:+ s.data)

/-- Go `path/filepath.Base` (Unix): empty path gives ".", trailing
slashes are stripped, then everything up to the final slash is removed;
an all-slash path gives "/". -/
def filepathBase (p : String) : String :=
  if p = "" then "."
  else
    let r := p.data.reverse.dropWhile (fun c => c = '/')
    if r = [] then "/"
    else ⟨(r.takeWhile (fun c => c ≠ '/')).reverse⟩

/-- Go `filepath.Join targetDir name` as used by the extractor: both
arguments are non-empty clean paths, so the join is directory, slash,
name. -/
def filepathJoin (dir name : String) : String :=
  dir ++ "/" ++ name

/-- Accumulator pass for `splitSlash`: split a character list at every
separator occurrence. -/
def splitCharAux (sep : Char) : List Char → List Char → List (List Char)
  | [], acc => [acc.reverse]
  | c :: rest, acc =>
    if c = sep then acc.reverse :: splitCharAux sep rest []
    else splitCharAux sep rest (c :: acc)

/-- Go `strings.Split(command, "/")` (single-character separator):
`"a/b"` gives `["a", "b"]`, `"https://h/o/r"` gives
`["https:", "", "h", "o", "r"]`, `""` gives `[""]`. -/
def splitSlash (s : String) : List String :=
  (splitCharAux '/' s.data []).map (fun cs => ⟨cs⟩)

/-- `type ReleaseAsset struct { BrowserDownloadURL, Name string }`. -/
structure ReleaseAsset where
  browserDownloadURL : String
  name : String
deriving DecidableEq, Repr

/-- `type EAssetFormat int` with its four constants. -/
inductive EAssetFormat where
  | BinaryFormat
  | TarballFormat
  | TargzipFormat
  | ZipFormat
deriving DecidableEq, Repr

/-- `type ERepoStatus int` with its three constants. -/
inductive ERepoStatus where
  | RepoOK
  | RepoKO
  | RepoExist
deriving DecidableEq, Repr

/-- `type Repository struct` (TOML-declared repository descriptor). -/
structure Repository where
  name : String
  file : String
  command : String
  utils : List String
  comment : String
  tags : List String
deriving DecidableEq, Repr

/-- `type ArchInfo struct { desired *[]string; undesired []*[]string }`. -/
structure ArchInfo where
  desired : List String
  undesired : List (List String)
deriving DecidableEq, Repr

/-- `Amd64Arch`: sorted from least desirable to most desirable. -/
def Amd64Arch : List String := ["", "amd64", "x86_64", "musl"]

/-- `Arm64Arch`: sorted from least desirable to most desirable. -/
def Arm64Arch : List String := ["", "arm", "arm64", "aarch64"]

/-- The `ArchEquiv` map lookup in `doFetch`, with the `!ok` fallback
`ArchInfo{desired: &[]string{hostArch}}`. -/
def archEquiv (hostArch : String) : ArchInfo :=
  if hostArch = "amd64" then ⟨Amd64Arch, [Arm64Arch]⟩
  else if hostArch = "arm64" then ⟨Arm64Arch, [Amd64Arch]⟩
  else ⟨[hostArch], []⟩

/-- The `OSEquiv` map lookup in `doFetch`, with the `!ok` fallback
`[]string{hostOS}`. -/
def osEquiv (hostOS : String) : List String :=
  if hostOS = "darwin" then ["darwin", "macos", "osx"] else [hostOS]

/-- The denylist of `doFetch`: "following a common convention, we ignore
SHA files, signatures, etc." -/
def ignoreList : List String := [".sha", ".sig", ".asc"]

/-- The mutable state of the `assetLoop` in `doFetch`:
`candidateAsset *ReleaseAsset` and `candidateStrength uint8`
(zero-initialised). -/
structure MatchState where
  candidateAsset : Option ReleaseAsset
  candidateStrength : Nat
deriving DecidableEq, Repr

/-- The inner OS loop of `assetLoop`: `for osIdx, os := range osList`,
updating the candidate when the combined strength `osIdx<<4 + archIdx`
strictly exceeds the current `candidateStrength`. -/
def osLoop (asset : ReleaseAsset) (assetName : String) (archIdx : Nat) :
    Nat → List String → MatchState → MatchState
  | _, [], st => st
  | osIdx, os :: rest, st =>
    osLoop asset assetName archIdx (osIdx + 1) rest
      (if containsSubstr assetName os then
        if osIdx * 16 + archIdx > st.candidateStrength then
          ⟨some asset, osIdx * 16 + archIdx⟩
        else st
       else st)

/-- The cross-architecture disqualification test inside `assetLoop`:
some non-empty token of some undesired family occurs in the name. -/
def disqualified (assetName : String) (undesired : List (List String)) : Bool :=
  undesired.any (fun fam => fam.any (fun tok => tok ≠ "" && containsSubstr assetName tok))

/-- The arch loop of `assetLoop`: `for archIdx, archName := range
*archList.desired`. A contained arch token triggers the undesired-family
scan; a hit there is `continue assetLoop`, abandoning the asset with the
state as it stands. -/
def archLoop (asset : ReleaseAsset) (assetName : String)
    (undesired : List (List String)) (osList : List String) :
    Nat → List String → MatchState → MatchState
  | _, [], st => st
  | archIdx, archName :: rest, st =>
    if containsSubstr assetName archName then
      if disqualified assetName undesired then st
      else
        archLoop asset assetName undesired osList (archIdx + 1) rest
          (osLoop asset assetName archIdx 0 osList st)
    else archLoop asset assetName undesired osList (archIdx + 1) rest st

/-- One iteration of `assetLoop`: lowercase the name, skip denylisted
names (`continue assetLoop`), then run the arch/OS loops. -/
def procAsset (archList : ArchInfo) (osList : List String)
    (st : MatchState) (asset : ReleaseAsset) : MatchState :=
  if ignoreList.any (fun ig => containsSubstr (lowerStr asset.name) ig) then st
  else archLoop asset (lowerStr asset.name) archList.undesired osList 0 archList.desired st

/-- The whole `assetLoop` of `doFetch`: fold over the release assets,
returning the final `candidateAsset` (`none` means status stays
`RepoKO`; `some` means `RepoOK` with that asset). -/
def selectAsset (assets : List ReleaseAsset) (hostArch hostOS : String) :
    Option ReleaseAsset :=
  let archList := archEquiv hostArch
  let osList := osEquiv hostOS
  (assets.foldl (procAsset archList osList) ⟨none, 0⟩).candidateAsset

/-- `getAssetFormat`: suffix-based (case-sensitive) format detection on
the original (non-lowercased) asset name. -/
def getAssetFormat (assetName : String) : EAssetFormat :=
  if hasSuffix assetName ".tar.gz" then .TargzipFormat
  else if hasSuffix assetName ".tgz" then .TargzipFormat
  else if hasSuffix assetName ".tar" then .TarballFormat
  else if hasSuffix assetName ".zip" then .ZipFormat
  else .BinaryFormat

/-- The asset name and format recorded on a `RepoOK` status in
`doFetch`: `repoStatus.Asset = candidateAsset.Name`,
`repoStatus.Format = getAssetFormat(candidateAsset.Name)`. -/
def selectWithFormat (assets : List ReleaseAsset) (hostArch hostOS : String) :
    Option (String × EAssetFormat) :=
  (selectAsset assets hostArch hostOS).map (fun a => (a.name, getAssetFormat a.name))

/-- An archive member as seen by the extraction loops. For tar archives
`isReg` records `header.Typeflag == tar.TypeReg`; for zip archives it
records whether the entry is a regular file (directory entries, whose
names end in "/", carry no data and have empty `content`). `content` is
the entry's byte payload. -/
structure ArchiveEntry where
  name : String
  isReg : Bool
  content : String
deriving DecidableEq, Repr

/-- A file write performed by `writeBinaryFile filePath content`:
`os.Create` followed by `io.Copy` and `os.Chmod(filePath, 0o755)`. -/
structure FileWrite where
  path : String
  content : String
  mode : Nat
deriving DecidableEq, Repr

/-- The `proceed` computation shared by the extraction loops: the entry's
base name is compared with `fileName` and then with each util in order;
the first hit is the name to write under. -/
def matchEntry (fileName : String) (utils : List String) (base : String) :
    Option String :=
  if base = fileName then some fileName
  else utils.find? (fun util => base = util)

/-- The entry loop of `writeTarballFile` and (after gzip decompression)
`writeTargzipFile`: skip non-regular entries, write each matched entry to
`filepath.Join(targetDir, *proceed)` with mode 0755, and stop after the
first successful write when no utils are declared
(`if len(utils) == 0 { break }`). Returns the writes performed, in
order. -/
def tarExtract (fileName : String) (utils : List String) (targetDir : String) :
    List ArchiveEntry → List FileWrite
  | [] => []
  | e :: rest =>
    if e.isReg = false then tarExtract fileName utils targetDir rest
    else
      match matchEntry fileName utils (filepathBase e.name) with
      | none => tarExtract fileName utils targetDir rest
      | some proceed =>
        ⟨filepathJoin targetDir proceed, e.content, 0o755⟩ ::
          (if utils.isEmpty then [] else tarExtract fileName utils targetDir rest)

/-- The entry loop of `writeZipFile` over `zipReader.File`: identical
matching and writing, but with no regular-file check — every entry of the
zip index, directory entries included, is matched by base name. -/
def zipExtract (fileName : String) (utils : List String) (targetDir : String) :
    List ArchiveEntry → List FileWrite
  | [] => []
  | e :: rest =>
    match matchEntry fileName utils (filepathBase e.name) with
    | none => zipExtract fileName utils targetDir rest
    | some proceed =>
      ⟨filepathJoin targetDir proceed, e.content, 0o755⟩ ::
        (if utils.isEmpty then [] else zipExtract fileName utils targetDir rest)

/-- `type RepoStatus struct` (without the pointer indirection). -/
structure RepoStatus where
  repo : Repository
  status : ERepoStatus
  format : EAssetFormat
  asset : String
  url : String
deriving DecidableEq, Repr

/-- The Fetching-phase loop of `doFetch`, recording the repositories on
which `downloadFile` is invoked. `dl` reports whether a given download
and extraction succeeds. Dry runs never download; non-OK repositories
are ignored; a failed download `break`s out of the loop. -/
def fetchingPhase (dryRun : Bool) (dl : RepoStatus → Bool) :
    List RepoStatus → List RepoStatus
  | [] => []
  | r :: rest =>
    if dryRun then fetchingPhase dryRun dl rest
    else if r.status ≠ .RepoOK then fetchingPhase dryRun dl rest
    else if dl r then r :: fetchingPhase dryRun dl rest
    else [r]

/-- `containsTag(repoTags, tags)`. -/
def containsTag (repoTags : List String) (tags : List String) : Bool :=
  tags.any (fun tag => repoTags.any (fun repoTag => tag = repoTag))

/-- The fetch-argument resolution of `doFetch` for a plain (non-`@`)
argument: split on "/"; with more than one segment, build the synthetic
`directRepo` (from segments 3–4 for a full `https:` URL, else from
segments 0–1), set the repository list to just that descriptor and the
command filter to its file name; with a single segment, keep the
configured repositories and filter by the bare token. All unset
`Repository` fields are Go zero values — in particular `Tags` is empty. -/
def resolveFetchArg (configRepos : List Repository) (command : String) :
    List Repository × List String :=
  let bits := splitSlash command
  if bits.length > 1 then
    let directRepo : Repository :=
      if bits.headD "" = "https:" then
        { name := "/".intercalate ((bits.drop 3).take 2),
          file := bits.getD 4 "",
          command := "", utils := [], comment := "", tags := [] }
      else
        { name := "/".intercalate (bits.take 2),
          file := bits.getD 1 "",
          command := "", utils := [], comment := "", tags := [] }
    ([directRepo], [directRepo.file])
  else (configRepos, [command])

/-- The filename/tag filter at the head of the Preflight loop of
`doFetch`: a repository is skipped when a non-empty command filter does
not list its file, or a non-empty tag filter has no tag in common with
its tags. Returns the repositories that preflight goes on to process. -/
def preflightSelect (checkedRepos : List Repository) (commands : List String)
    (tags : List String) : List Repository :=
  checkedRepos.filter (fun repo =>
    (commands.isEmpty || commands.any (fun v => v = repo.file)) &&
    (tags.isEmpty || containsTag repo.tags tags))

/-- Fixture: an OK repository status whose download succeeds. -/
def fetchOk1 : RepoStatus :=
  ⟨⟨"o1/r1", "r1", "", [], "", []⟩, .RepoOK, .BinaryFormat, "r1-linux-amd64", "u-ok1"⟩

/-- Fixture: an OK repository status whose download fails. -/
def fetchBad : RepoStatus :=
  ⟨⟨"o2/r2", "r2", "", [], "", []⟩, .RepoOK, .BinaryFormat, "r2-linux-amd64", "u-bad"⟩

/-- Fixture: an OK repository status after the failing one. -/
def fetchOk2 : RepoStatus :=
  ⟨⟨"o3/r3", "r3", "", [], "", []⟩, .RepoOK, .BinaryFormat, "r3-linux-amd64", "u-ok2"⟩

/-- Fixture: a download-success oracle that fails exactly on `fetchBad`. -/
def dlOracle (rs : RepoStatus) : Bool := rs.url != "u-bad"

/-! ## Helper lemmas -/

theorem substring_map {α β : Type} (f : α → β) {l1 l2 : List α} (h : l1 <:+: l2) :
    l1.map f <:+: l2.map f := by
  obtain ⟨s, t, rfl⟩ := h
  exact ⟨s.map f, t.map f, by simp⟩

theorem containsSubstr_lower {s sub : String} (hsub : lowerStr sub = sub)
    (h : containsSubstr s sub = true) : containsSubstr (lowerStr s) sub = true := by
  simp only [containsSubstr, decide_eq_true_eq] at h ⊢
  have hmap := substring_map Char.toLower h
  have hdata : sub.data.map Char.toLower = sub.data := congrArg String.data hsub
  rw [hdata] at hmap
  exact hmap

/-- The state update of one OS-loop iteration leaves the candidate alone
or installs the current asset. -/
theorem osLoop_candidate (asset : ReleaseAsset) (assetName : String) (archIdx : Nat) :
    ∀ (osList : List String) (osIdx : Nat) (st : MatchState),
      (osLoop asset assetName archIdx osIdx osList st).candidateAsset = st.candidateAsset ∨
      (osLoop asset assetName archIdx osIdx osList st).candidateAsset = some asset := by
  intro osList
  induction osList with
  | nil => intro osIdx st; left; rfl
  | cons os rest ih =>
    intro osIdx st
    simp only [osLoop]
    split
    · split
      · rcases ih (osIdx + 1) ⟨some asset, osIdx * 16 + archIdx⟩ with h | h
        · right; rw [h]
        · right; exact h
      · exact ih (osIdx + 1) st
    · exact ih (osIdx + 1) st

/-- The arch loop leaves the candidate alone or installs the current
asset, and in the latter case the asset was not cross-architecture
disqualified. -/
theorem archLoop_candidate (asset : ReleaseAsset) (assetName : String)
    (undesired : List (List String)) (osList : List String) :
    ∀ (desired : List String) (archIdx : Nat) (st : MatchState),
      (archLoop asset assetName undesired osList archIdx desired st).candidateAsset =
        st.candidateAsset ∨
      ((archLoop asset assetName undesired osList archIdx desired st).candidateAsset =
        some asset ∧ disqualified assetName undesired = false) := by
  intro desired
  induction desired with
  | nil => intro archIdx st; left; rfl
  | cons archName rest ih =>
    intro archIdx st
    simp only [archLoop]
    split
    · split
      · left; rfl
      · rename_i hdis
        have hdis' : disqualified assetName undesired = false := by
          simpa using hdis
        rcases ih (archIdx + 1) (osLoop asset assetName archIdx 0 osList st) with h | h
        · rw [h]
          rcases osLoop_candidate asset assetName archIdx osList 0 st with h2 | h2
          · left; exact h2
          · right; exact ⟨h2, hdis'⟩
        · right; exact h
    · exact ih (archIdx + 1) st

/-- One `assetLoop` iteration leaves the candidate alone or installs the
current asset; a newly installed asset is neither denylisted nor
cross-architecture disqualified. -/
theorem procAsset_candidate (archList : ArchInfo) (osList : List String)
    (st : MatchState) (asset : ReleaseAsset) :
    (procAsset archList osList st asset).candidateAsset = st.candidateAsset ∨
    ((procAsset archList osList st asset).candidateAsset = some asset ∧
      (ignoreList.any (fun ig => containsSubstr (lowerStr asset.name) ig)) = false ∧
      disqualified (lowerStr asset.name) archList.undesired = false) := by
  simp only [procAsset]
  split
  · left; rfl
  · rename_i hig
    have hig' : (ignoreList.any (fun ig => containsSubstr (lowerStr asset.name) ig)) = false := by
      simpa using hig
    rcases archLoop_candidate asset (lowerStr asset.name) archList.undesired osList
        archList.desired 0 st with h | h
    · left; exact h
    · right; exact ⟨h.1, hig', h.2⟩

/-- Fold invariant: any selected asset came from the list, is not
denylisted, and is not cross-architecture disqualified. -/
theorem foldl_candidate (archList : ArchInfo) (osList : List String) :
    ∀ (assets : List ReleaseAsset) (st : MatchState) (a : ReleaseAsset),
      (assets.foldl (procAsset archList osList) st).candidateAsset = some a →
      st.candidateAsset = some a ∨
        (a ∈ assets ∧
          (ignoreList.any (fun ig => containsSubstr (lowerStr a.name) ig)) = false ∧
          disqualified (lowerStr a.name) archList.undesired = false) := by
  intro assets
  induction assets with
  | nil => intro st a h; left; exact h
  | cons asset rest ih =>
    intro st a h
    rcases ih (procAsset archList osList st asset) a h with h2 | h2
    · rcases procAsset_candidate archList osList st asset with h3 | h3
      · left; rw [← h3]; exact h2
      · right
        have : a = asset := by rw [h2] at h3; exact Option.some_inj.mp h3.1
        subst this
        exact ⟨List.mem_cons_self _ _, h3.2.1, h3.2.2⟩
    · right; exact ⟨List.mem_cons_of_mem _ h2.1, h2.2.1, h2.2.2⟩

/-- Any asset selected by the matcher came from the asset list, passes
the denylist, and contains no non-empty token of a disqualifying
architecture family (all checks on the lowercased name, as in the code). -/
theorem selectAsset_sound (assets : List ReleaseAsset) (hostArch hostOS : String)
    (a : ReleaseAsset) (h : selectAsset assets hostArch hostOS = some a) :
    a ∈ assets ∧
      (ignoreList.any (fun ig => containsSubstr (lowerStr a.name) ig)) = false ∧
      disqualified (lowerStr a.name) (archEquiv hostArch).undesired = false := by
  rcases foldl_candidate (archEquiv hostArch) (osEquiv hostOS) assets ⟨none, 0⟩ a h with h2 | h2
  · exact absurd h2 (by simp)
  · exact h2

theorem string_data_append (a b : String) : (a ++ b).data = a.data ++ b.data := rfl

theorem filepathJoin_injective (dir : String) : Function.Injective (filepathJoin dir) := by
  intro a b h
  have hd : (dir ++ "/").data ++ a.data = (dir ++ "/").data ++ b.data := by
    have := congrArg String.data h
    simpa [filepathJoin, string_data_append, List.append_assoc] using this
  have hab : a.data = b.data := List.append_cancel_left hd
  cases a; cases b; exact congrArg String.mk hab

theorem find?_self_eq : ∀ (utils : List String) (base : String), base ∈ utils →
    utils.find? (fun util => base = util) = some base := by
  intro utils
  induction utils with
  | nil => intro base h; cases h
  | cons u rest ih =>
    intro base h
    by_cases hbu : base = u
    · subst hbu
      simp [List.find?]
    · have hmem : base ∈ rest := by
        rcases List.mem_cons.mp h with h1 | h1
        · exact absurd h1 hbu
        · exact h1
      rw [List.find?_cons_of_neg _ (by simpa using hbu)]
      exact ih base hmem

theorem matchEntry_self (fileName : String) (utils : List String) (base : String)
    (h : base ∈ fileName :: utils) : matchEntry fileName utils base = some base := by
  unfold matchEntry
  split
  · rename_i heq; rw [heq]
  · rename_i hne
    have hmem : base ∈ utils := by
      rcases List.mem_cons.mp h with h1 | h1
      · exact absurd h1 hne
      · exact h1
    exact find?_self_eq utils base hmem

theorem matchEntry_eq_none (fileName : String) (utils : List String) (base : String)
    (h : base ∉ fileName :: utils) : matchEntry fileName utils base = none := by
  unfold matchEntry
  split
  · rename_i heq; exact absurd (heq ▸ List.mem_cons_self _ _) h
  · rw [List.find?_eq_none]
    intro util hu
    simp only [decide_eq_true_eq]
    intro heq
    exact h (heq ▸ List.mem_cons_of_mem _ hu)

theorem matchEntry_mem (fileName : String) (utils : List String) (base w : String)
    (h : matchEntry fileName utils base = some w) : w ∈ fileName :: utils := by
  unfold matchEntry at h
  split at h
  · exact (Option.some_inj.mp h) ▸ List.mem_cons_self _ _
  · exact List.mem_cons_of_mem _ (List.mem_of_find?_eq_some h)

/-- With at least one declared util, the tar loop never breaks, so an
archive all of whose entries are regular and match writes every entry. -/
theorem tarExtract_all (fileName : String) (utils : List String) (targetDir : String)
    (hut : utils ≠ []) :
    ∀ entries : List ArchiveEntry,
      (∀ e ∈ entries, e.isReg = true) →
      (∀ e ∈ entries, filepathBase e.name ∈ fileName :: utils) →
      tarExtract fileName utils targetDir entries =
        entries.map (fun e =>
          ⟨filepathJoin targetDir (filepathBase e.name), e.content, 0o755⟩) := by
  intro entries
  induction entries with
  | nil => intro _ _; rfl
  | cons e rest ih =>
    intro hreg hmem
    have he : e.isReg = true := hreg e (List.mem_cons_self _ _)
    have hm := matchEntry_self fileName utils (filepathBase e.name)
      (hmem e (List.mem_cons_self _ _))
    have hne : utils.isEmpty = false := by simpa [List.isEmpty_iff] using hut
    simp only [tarExtract, he, hm, hne, List.map_cons, Bool.false_eq_true, if_false]
    rw [ih (fun x hx => hreg x (List.mem_cons_of_mem _ hx))
      (fun x hx => hmem x (List.mem_cons_of_mem _ hx))]
    rfl

/-- Zip analogue of `tarExtract_all` (no regularity condition: the zip
loop has no regular-file check). -/
theorem zipExtract_all (fileName : String) (utils : List String) (targetDir : String)
    (hut : utils ≠ []) :
    ∀ entries : List ArchiveEntry,
      (∀ e ∈ entries, filepathBase e.name ∈ fileName :: utils) →
      zipExtract fileName utils targetDir entries =
        entries.map (fun e =>
          ⟨filepathJoin targetDir (filepathBase e.name), e.content, 0o755⟩) := by
  intro entries
  induction entries with
  | nil => intro _; rfl
  | cons e rest ih =>
    intro hmem
    have hm := matchEntry_self fileName utils (filepathBase e.name)
      (hmem e (List.mem_cons_self _ _))
    have hne : utils.isEmpty = false := by simpa [List.isEmpty_iff] using hut
    simp only [zipExtract, hm, hne, List.map_cons, Bool.false_eq_true, if_false]
    rw [ih (fun x hx => hmem x (List.mem_cons_of_mem _ hx))]

/-- Every write of the tar loop targets the primary file name or a util. -/
theorem tarExtract_path (fileName : String) (utils : List String) (targetDir : String) :
    ∀ (entries : List ArchiveEntry) (w : FileWrite),
      w ∈ tarExtract fileName utils targetDir entries →
      ∃ n, n ∈ fileName :: utils ∧ w.path = filepathJoin targetDir n := by
  intro entries
  induction entries with
  | nil => intro w h; cases h
  | cons e rest ih =>
    intro w h
    simp only [tarExtract] at h
    by_cases he : e.isReg = false
    · rw [if_pos he] at h; exact ih w h
    · rw [if_neg he] at h
      rcases hm : matchEntry fileName utils (filepathBase e.name) with _ | proceed
      · rw [hm] at h; exact ih w h
      · rw [hm] at h
        rcases List.mem_cons.mp h with h1 | h1
        · exact ⟨proceed, matchEntry_mem _ _ _ _ hm, by rw [h1]⟩
        · by_cases hu : utils.isEmpty
          · rw [if_pos hu] at h1; cases h1
          · rw [if_neg hu] at h1; exact ih w h1

/-- Every write of the zip loop targets the primary file name or a util. -/
theorem zipExtract_path (fileName : String) (utils : List String) (targetDir : String) :
    ∀ (entries : List ArchiveEntry) (w : FileWrite),
      w ∈ zipExtract fileName utils targetDir entries →
      ∃ n, n ∈ fileName :: utils ∧ w.path = filepathJoin targetDir n := by
  intro entries
  induction entries with
  | nil => intro w h; cases h
  | cons e rest ih =>
    intro w h
    simp only [zipExtract] at h
    rcases hm : matchEntry fileName utils (filepathBase e.name) with _ | proceed
    · rw [hm] at h; exact ih w h
    · rw [hm] at h
      rcases List.mem_cons.mp h with h1 | h1
      · exact ⟨proceed, matchEntry_mem _ _ _ _ hm, by rw [h1]⟩
      · by_cases hu : utils.isEmpty
        · rw [if_pos hu] at h1; cases h1
        · rw [if_neg hu] at h1; exact ih w h1

/-- A tar archive none of whose regular entries matches writes nothing. -/
theorem tarExtract_no_match (fileName : String) (utils : List String) (targetDir : String) :
    ∀ entries : List ArchiveEntry,
      (∀ e ∈ entries, e.isReg = true → filepathBase e.name ∉ fileName :: utils) →
      tarExtract fileName utils targetDir entries = [] := by
  intro entries
  induction entries with
  | nil => intro _; rfl
  | cons e rest ih =>
    intro hmem
    simp only [tarExtract]
    by_cases he : e.isReg = false
    · rw [if_pos he]; exact ih fun x hx => hmem x (List.mem_cons_of_mem _ hx)
    · rw [if_neg he,
        matchEntry_eq_none fileName utils _
          (hmem e (List.mem_cons_self _ _) (by simpa using he))]
      exact ih fun x hx => hmem x (List.mem_cons_of_mem _ hx)

/-- A zip archive none of whose entries (regular or not) matches writes
nothing. -/
theorem zipExtract_no_match (fileName : String) (utils : List String) (targetDir : String) :
    ∀ entries : List ArchiveEntry,
      (∀ e ∈ entries, filepathBase e.name ∉ fileName :: utils) →
      zipExtract fileName utils targetDir entries = [] := by
  intro entries
  induction entries with
  | nil => intro _; rfl
  | cons e rest ih =>
    intro hmem
    simp only [zipExtract,
      matchEntry_eq_none fileName utils _ (hmem e (List.mem_cons_self _ _))]
    exact ih fun x hx => hmem x (List.mem_cons_of_mem _ hx)

/-- Every repository the Fetching phase touches comes from its input
list. -/
theorem fetchingPhase_subset (dryRun : Bool) (dl : RepoStatus → Bool) :
    ∀ (l : List RepoStatus) (x : RepoStatus), x ∈ fetchingPhase dryRun dl l → x ∈ l := by
  intro l
  induction l with
  | nil => intro x h; cases h
  | cons rhd rest ih =>
    intro x h
    simp only [fetchingPhase] at h
    split at h
    · exact List.mem_cons_of_mem _ (ih x h)
    · split at h
      · exact List.mem_cons_of_mem _ (ih x h)
      · split at h
        · rcases List.mem_cons.mp h with h1 | h1
          · exact h1 ▸ List.mem_cons_self _ _
          · exact List.mem_cons_of_mem _ (ih x h1)
        · exact (List.mem_singleton.mp h) ▸ List.mem_cons_self _ _

theorem containsTag_nil (tags : List String) : containsTag [] tags = false := by
  simp [containsTag]

theorem lowerStr_fixed_arch (tok : String)
    (h : tok ∈ Amd64Arch ∨ tok ∈ Arm64Arch) : lowerStr tok = tok := by
  rcases h with h | h <;>
  · simp [Amd64Arch, Arm64Arch] at h
    rcases h with rfl | rfl | rfl | rfl <;> decide

theorem lowerStr_fixed_ignore (ig : String) (h : ig ∈ ignoreList) : lowerStr ig = ig := by
  simp [ignoreList] at h
  rcases h with rfl | rfl | rfl <;> decide

/-! ## Claim theorems -/

/-- C1: the spec asserts that a candidate matching only via the
empty-string architecture rung (index 0) with the OS family's first
synonym — combined score 0 — is still selected at the lowest strength
(status OK). The code contradicts this: `candidateStrength` starts at 0
and an update requires `strength > candidateStrength`, so a score-0 match
never installs a candidate and the repository stays KO. Witnessed at the
failing input: host darwin/amd64, asset list `["app-darwin"]`, which
contains the OS synonym "darwin", no explicit architecture token, and no
disqualifying token, yet the matcher selects nothing. -/
theorem c1_strength_zero_not_selected :
    containsSubstr (lowerStr "app-darwin") "darwin" = true ∧
    (∀ tok ∈ Amd64Arch, tok ≠ "" → containsSubstr (lowerStr "app-darwin") tok = false) ∧
    disqualified (lowerStr "app-darwin") (archEquiv "amd64").undesired = false ∧
    selectAsset [⟨"u1", "app-darwin"⟩] "amd64" "darwin" = none := by decide

/-- C1 witness: the second conjunct instantiated at the token "amd64". -/
theorem c1_witness : containsSubstr (lowerStr "app-darwin") "amd64" = false :=
  c1_strength_zero_not_selected.2.1 "amd64" (by decide) (by decide)

/-- C2 counterexample: for the asset list `["app-arm64", "app-amd64"]`
on an arm64 host (host OS linux, and likewise darwin), the matcher
selects nothing at all — neither name contains any OS synonym, so no
strength is ever computed and the status is KO, not a selection of
`app-arm64`. -/
theorem c2_counterexample :
    selectAsset [⟨"u1", "app-arm64"⟩, ⟨"u2", "app-amd64"⟩] "arm64" "linux" = none ∧
    selectAsset [⟨"u1", "app-arm64"⟩, ⟨"u2", "app-amd64"⟩] "arm64" "darwin" = none := by
  decide

/-- C2 amended: with an OS token present in the names — asset list
`["app-linux-arm64", "app-linux-amd64"]` on a linux/arm64 host — the
matcher selects `app-linux-arm64` with format Binary and rejects
`app-linux-amd64` via cross-architecture exclusion. -/
theorem c2_amended_selection :
    selectWithFormat [⟨"u1", "app-linux-arm64"⟩, ⟨"u2", "app-linux-amd64"⟩] "arm64" "linux" =
      some ("app-linux-arm64", .BinaryFormat) := by decide

/-- C3: for every recognized host architecture (amd64 or arm64) and
every candidate whose name — as written or lowercased — contains a
non-empty token of a disqualifying architecture family, the matcher
never selects that candidate, regardless of the asset list and host OS
(in particular even though such a name always matches the desired family
via its empty-string rung). -/
theorem c3_cross_arch_exclusion (hostArch hostOS : String) (assets : List ReleaseAsset)
    (a : ReleaseAsset) (fam : List String) (tok : String)
    (hA : hostArch = "amd64" ∨ hostArch = "arm64")
    (hfam : fam ∈ (archEquiv hostArch).undesired)
    (htok : tok ∈ fam) (hne : tok ≠ "")
    (hcont : containsSubstr a.name tok = true ∨ containsSubstr (lowerStr a.name) tok = true) :
    selectAsset assets hostArch hostOS ≠ some a := by
  intro hsel
  obtain ⟨-, -, hdis⟩ := selectAsset_sound assets hostArch hostOS a hsel
  have htok2 : tok ∈ Amd64Arch ∨ tok ∈ Arm64Arch := by
    rcases hA with rfl | rfl
    · have he : (archEquiv "amd64").undesired = [Arm64Arch] := by decide
      rw [he] at hfam
      exact Or.inr ((List.mem_singleton.mp hfam) ▸ htok)
    · have he : (archEquiv "arm64").undesired = [Amd64Arch] := by decide
      rw [he] at hfam
      exact Or.inl ((List.mem_singleton.mp hfam) ▸ htok)
  have hlow : containsSubstr (lowerStr a.name) tok = true := by
    rcases hcont with h | h
    · exact containsSubstr_lower (lowerStr_fixed_arch tok htok2) h
    · exact h
  have hdis2 : disqualified (lowerStr a.name) (archEquiv hostArch).undesired = true := by
    simp only [disqualified, List.any_eq_true]
    exact ⟨fam, hfam, tok, htok, by simp [hne, hlow]⟩
  rw [hdis] at hdis2
  exact Bool.false_ne_true hdis2

/-- C3 witness: on an arm64/linux host, the asset `app-linux-amd64`
(which matches the arm64 family's empty rung and the linux OS token) is
never selected because it carries the disqualifying token "amd64". -/
theorem c3_witness :
    selectAsset [⟨"u1", "app-linux-amd64"⟩] "arm64" "linux" ≠ some ⟨"u1", "app-linux-amd64"⟩ :=
  c3_cross_arch_exclusion "arm64" "linux" [⟨"u1", "app-linux-amd64"⟩]
    ⟨"u1", "app-linux-amd64"⟩ Amd64Arch "amd64" (Or.inr rfl) (by decide) (by decide)
    (by decide) (Or.inl (by decide))

/-- C4: an asset whose name contains a denylisted checksum/signature
infix (".sha", ".sig", ".asc", checked on the lowercased name) is never
selected, whatever the asset list and host; and on a darwin/amd64 host
the asset list `["tool_darwin_amd64.tar.gz", "tool_linux_amd64.tar.gz",
"tool.sha256"]` yields `tool_darwin_amd64.tar.gz` with format
GzipTarball — never the `.sha256` entry. -/
theorem c4_denylist_never_selected :
    (∀ (assets : List ReleaseAsset) (hostArch hostOS : String) (a : ReleaseAsset)
        (ig : String), ig ∈ ignoreList →
      selectAsset assets hostArch hostOS = some a →
      containsSubstr a.name ig = false ∧ containsSubstr (lowerStr a.name) ig = false) ∧
    selectWithFormat
      [⟨"u1", "tool_darwin_amd64.tar.gz"⟩, ⟨"u2", "tool_linux_amd64.tar.gz"⟩,
       ⟨"u3", "tool.sha256"⟩] "amd64" "darwin" =
      some ("tool_darwin_amd64.tar.gz", .TargzipFormat) := by
  constructor
  · intro assets hostArch hostOS a ig hig hsel
    obtain ⟨-, hany, -⟩ := selectAsset_sound assets hostArch hostOS a hsel
    have hall : ∀ x ∈ ignoreList, containsSubstr (lowerStr a.name) x = false := by
      intro x hx
      exact Bool.eq_false_iff.mpr (List.any_eq_false.mp hany x hx)
    have hlowfalse := hall ig hig
    refine ⟨?_, hlowfalse⟩
    cases hc : containsSubstr a.name ig with
    | false => rfl
    | true =>
      have h2 := containsSubstr_lower (lowerStr_fixed_ignore ig hig) hc
      rw [hlowfalse] at h2
      exact absurd h2 (by simp)
  · decide

/-- C4 witness: the general denylist conjunct applied to the scenario's
selected asset and the infix ".sha". -/
theorem c4_witness :
    containsSubstr "tool_darwin_amd64.tar.gz" ".sha" = false ∧
    containsSubstr (lowerStr "tool_darwin_amd64.tar.gz") ".sha" = false :=
  c4_denylist_never_selected.1
    [⟨"u1", "tool_darwin_amd64.tar.gz"⟩, ⟨"u2", "tool_linux_amd64.tar.gz"⟩,
     ⟨"u3", "tool.sha256"⟩] "amd64" "darwin" ⟨"u1", "tool_darwin_amd64.tar.gz"⟩
    ".sha" (by decide) (by decide)

/-- C9: selection matches on the lowercased name but `getAssetFormat`
inspects the original name case-sensitively: on a linux/amd64 host the
sole asset `tool_linux_amd64.ZIP` matches the host triple and is
selected, yet its recorded format is Binary, while the lowercased name
would map to Zip. -/
theorem c9_case_sensitive_format :
    selectWithFormat [⟨"u1", "tool_linux_amd64.ZIP"⟩] "amd64" "linux" =
      some ("tool_linux_amd64.ZIP", .BinaryFormat) ∧
    getAssetFormat (lowerStr "tool_linux_amd64.ZIP") = .ZipFormat := by decide

/-- C5: round-trip extraction. For a primary file name and utils with
pairwise-distinct base names, extracting from an archive — tar (which
also covers gzip-tarballs, whose entry loop is identical after
decompression) or zip — containing exactly those N+1 entries (each a
regular file, possibly nested in subdirectories) writes exactly N+1
files, one per entry, at pairwise-distinct target paths, each with mode
0755 and byte-identical content to its source entry. -/
theorem c5_roundtrip_extraction (fileName : String) (utils : List String)
    (targetDir : String) (entries : List ArchiveEntry)
    (hnodup : (fileName :: utils).Nodup)
    (hperm : List.Perm (entries.map (fun e => filepathBase e.name)) (fileName :: utils))
    (hreg : ∀ e ∈ entries, e.isReg = true) :
    tarExtract fileName utils targetDir entries =
      entries.map (fun e =>
        ⟨filepathJoin targetDir (filepathBase e.name), e.content, 0o755⟩) ∧
    zipExtract fileName utils targetDir entries =
      entries.map (fun e =>
        ⟨filepathJoin targetDir (filepathBase e.name), e.content, 0o755⟩) ∧
    (tarExtract fileName utils targetDir entries).length = utils.length + 1 ∧
    ((tarExtract fileName utils targetDir entries).map (fun w => w.path)).Nodup ∧
    (∀ w ∈ tarExtract fileName utils targetDir entries, w.mode = 0o755) := by
  have hmem : ∀ e ∈ entries, filepathBase e.name ∈ fileName :: utils := fun e he =>
    hperm.subset (List.mem_map_of_mem _ he)
  have hlen : entries.length = utils.length + 1 := by
    have h := hperm.length_eq
    simpa using h
  have hmaps : tarExtract fileName utils targetDir entries =
      entries.map (fun e =>
        ⟨filepathJoin targetDir (filepathBase e.name), e.content, 0o755⟩) ∧
      zipExtract fileName utils targetDir entries =
      entries.map (fun e =>
        ⟨filepathJoin targetDir (filepathBase e.name), e.content, 0o755⟩) := by
    rcases hu : utils with _ | ⟨u, us⟩
    · subst hu
      have hl1 : entries.length = 1 := by simpa using hlen
      obtain ⟨e, rfl⟩ := List.length_eq_one.mp hl1
      have hbase : filepathBase e.name = fileName := by simpa using hperm
      have hre : e.isReg = true := hreg e (List.mem_cons_self _ _)
      have hm : matchEntry fileName [] (filepathBase e.name) =
          some (filepathBase e.name) :=
        matchEntry_self fileName [] (filepathBase e.name) (by rw [hbase]; simp)
      constructor
      · simp [tarExtract, hre, hm]
      · simp [zipExtract, hm]
    · have hut : utils ≠ [] := by rw [hu]; simp
      rw [← hu] at *
      exact ⟨tarExtract_all fileName utils targetDir hut entries hreg hmem,
        zipExtract_all fileName utils targetDir hut entries hmem⟩
  refine ⟨hmaps.1, hmaps.2, ?_, ?_, ?_⟩
  · rw [hmaps.1, List.length_map, hlen]
  · rw [hmaps.1, List.map_map]
    have hcomp : ((fun w : FileWrite => w.path) ∘ fun e : ArchiveEntry =>
        (⟨filepathJoin targetDir (filepathBase e.name), e.content, 0o755⟩ : FileWrite)) =
        fun e : ArchiveEntry => filepathJoin targetDir (filepathBase e.name) := rfl
    rw [hcomp]
    have hbn : (entries.map (fun e => filepathBase e.name)).Nodup :=
      hperm.nodup_iff.mpr hnodup
    have := List.Nodup.map (filepathJoin_injective targetDir) hbn
    simpa [List.map_map] using this
  · intro w hw
    rw [hmaps.1] at hw
    obtain ⟨e, -, rfl⟩ := List.mem_map.mp hw
    rfl

/-- C5 witness: primary "tool" and one util "helper", archive entries
nested in a subdirectory, extracted to "bin". -/
theorem c5_witness :
    tarExtract "tool" ["helper"] "bin"
      [⟨"sub/helper", true, "H"⟩, ⟨"tool", true, "T"⟩] =
      [⟨"bin/helper", "H", 0o755⟩, ⟨"bin/tool", "T", 0o755⟩] ∧
    zipExtract "tool" ["helper"] "bin"
      [⟨"sub/helper", true, "H"⟩, ⟨"tool", true, "T"⟩] =
      [⟨"bin/helper", "H", 0o755⟩, ⟨"bin/tool", "T", 0o755⟩] ∧
    (tarExtract "tool" ["helper"] "bin"
      [⟨"sub/helper", true, "H"⟩, ⟨"tool", true, "T"⟩]).length = 2 := by
  have h := c5_roundtrip_extraction "tool" ["helper"] "bin"
    [⟨"sub/helper", true, "H"⟩, ⟨"tool", true, "T"⟩] (by decide) (by decide) (by decide)
  refine ⟨?_, ?_, ?_⟩
  · rw [h.1]; decide
  · rw [h.2.1]; decide
  · rw [h.2.2.1]; rfl

/-- C6: the Archive Extractor only ever writes to target-directory paths
formed from the primary file name or a declared util — for every archive
entry list (tar or zip), every performed write joins the target
directory with one of the requested names. -/
theorem c6_writes_only_requested_names (fileName : String) (utils : List String)
    (targetDir : String) (entries : List ArchiveEntry) (w : FileWrite)
    (h : w ∈ tarExtract fileName utils targetDir entries ∨
         w ∈ zipExtract fileName utils targetDir entries) :
    ∃ n, n ∈ fileName :: utils ∧ w.path = filepathJoin targetDir n := by
  rcases h with h | h
  · exact tarExtract_path fileName utils targetDir entries w h
  · exact zipExtract_path fileName utils targetDir entries w h

/-- C6 witness: the single write of a one-entry tar archive targets the
requested name "tool". -/
theorem c6_witness :
    ∃ n, n ∈ "tool" :: ([] : List String) ∧
      (⟨"bin/tool", "T", 0o755⟩ : FileWrite).path = filepathJoin "bin" n :=
  c6_writes_only_requested_names "tool" [] "bin" [⟨"tool", true, "T"⟩]
    ⟨"bin/tool", "T", 0o755⟩ (Or.inl (by decide))

/-- C7: fail-fast in the Fetching phase. If every OK repository before
position i downloads successfully and the OK repository r at position i
fails, the set of repositories on which a download is attempted is
exactly those attempted among the prefix plus r itself — no repository
after r is fetched in that run. -/
theorem c7_fail_fast (dl : RepoStatus → Bool) (l1 l2 : List RepoStatus) (r : RepoStatus)
    (h1 : ∀ x ∈ l1, x.status = .RepoOK → dl x = true)
    (hr : r.status = .RepoOK) (hfail : dl r = false) :
    fetchingPhase false dl (l1 ++ r :: l2) = fetchingPhase false dl l1 ++ [r] ∧
    ∀ x ∈ fetchingPhase false dl (l1 ++ r :: l2), x ∈ l1 ∨ x = r := by
  have hmain : ∀ l : List RepoStatus, (∀ x ∈ l, x.status = .RepoOK → dl x = true) →
      fetchingPhase false dl (l ++ r :: l2) = fetchingPhase false dl l ++ [r] := by
    intro l
    induction l with
    | nil => intro _; simp [fetchingPhase, hr, hfail]
    | cons x rest ih =>
      intro hall
      by_cases hx : x.status = .RepoOK
      · have hdx : dl x = true := hall x (List.mem_cons_self _ _) hx
        simp [fetchingPhase, hx, hdx, ih fun y hy => hall y (List.mem_cons_of_mem _ hy)]
      · simp [fetchingPhase, hx, ih fun y hy => hall y (List.mem_cons_of_mem _ hy)]
  refine ⟨hmain l1 h1, ?_⟩
  intro x hx
  rw [hmain l1 h1] at hx
  rcases List.mem_append.mp hx with h | h
  · exact Or.inl (fetchingPhase_subset false dl l1 x h)
  · exact Or.inr (List.mem_singleton.mp h)

/-- C7 witness: with the middle repository's download failing, the
Fetching phase attempts exactly the first two repositories and never
reaches the third. -/
theorem c7_witness :
    fetchingPhase false dlOracle [fetchOk1, fetchBad, fetchOk2] =
      fetchingPhase false dlOracle [fetchOk1] ++ [fetchBad] ∧
    ∀ x ∈ fetchingPhase false dlOracle [fetchOk1, fetchBad, fetchOk2],
      x ∈ [fetchOk1] ∨ x = fetchBad :=
  c7_fail_fast dlOracle [fetchOk1] [fetchOk2] fetchBad (by decide) (by decide) (by decide)

/-- C8 counterexample: the claim fails for zip archives. A well-formed
zip whose only entry is the directory entry "tool/" (not a regular file,
empty payload) has no regular-file entry whose base name matches the
requested name "tool", yet extraction writes one file: the zip loop has
no regular-file check and Go's `filepath.Base("tool/")` is "tool". -/
theorem c8_counterexample :
    (∀ e ∈ [(⟨"tool/", false, ""⟩ : ArchiveEntry)], e.isReg = true →
      filepathBase e.name ∉ "tool" :: ([] : List String)) ∧
    zipExtract "tool" [] "bin" [⟨"tool/", false, ""⟩] = [⟨"bin/tool", "", 0o755⟩] := by
  decide

/-- C8 amended: a tar (or gzip-tar) archive none of whose regular-file
entries has a base name equal to the primary filename or a declared util
extracts with zero writes, as claimed; for zip archives the same holds
provided no entry at all — directory entries included — has a matching
base name (the zip loop does not skip non-regular entries). The
extraction model is total, so completion without error is inherent. -/
theorem c8_amended_silent_noop (fileName : String) (utils : List String)
    (targetDir : String) (tarEntries zipEntries : List ArchiveEntry)
    (htar : ∀ e ∈ tarEntries, e.isReg = true → filepathBase e.name ∉ fileName :: utils)
    (hzip : ∀ e ∈ zipEntries, filepathBase e.name ∉ fileName :: utils) :
    tarExtract fileName utils targetDir tarEntries = [] ∧
    zipExtract fileName utils targetDir zipEntries = [] :=
  ⟨tarExtract_no_match fileName utils targetDir tarEntries htar,
   zipExtract_no_match fileName utils targetDir zipEntries hzip⟩

/-- C8 witness: a tar archive with a non-matching regular file and a
non-regular entry, and a zip archive with a non-matching nested file,
both extract to zero writes. -/
theorem c8_witness :
    tarExtract "tool" [] "bin" [⟨"other", true, "X"⟩, ⟨"tool", false, ""⟩] = [] ∧
    zipExtract "tool" [] "bin" [⟨"sub/other", true, "X"⟩] = [] :=
  c8_amended_silent_noop "tool" [] "bin" [⟨"other", true, "X"⟩, ⟨"tool", false, ""⟩]
    [⟨"sub/other", true, "X"⟩] (by decide) (by decide)

/-- C10: a fetch argument in owner/repo shorthand form or full-URL form
(more than one "/"-separated segment) produces a synthetic transient
repository descriptor whose tag set is the Go zero value (empty); with
any non-empty tag filter, the preflight filename/tag filter therefore
selects zero repositories, so nothing is ever fetched. -/
theorem c10_tag_filter_excludes_synthetic (configRepos : List Repository)
    (command : String) (tags : List String)
    (hslash : (splitSlash command).length > 1)
    (htags : tags ≠ []) :
    (∀ repo ∈ (resolveFetchArg configRepos command).1, repo.tags = []) ∧
    preflightSelect (resolveFetchArg configRepos command).1
      (resolveFetchArg configRepos command).2 tags = [] := by
  have hne : tags.isEmpty = false := by simpa [List.isEmpty_iff] using htags
  simp only [resolveFetchArg, if_pos hslash]
  split <;> refine ⟨?_, ?_⟩ <;> simp [preflightSelect, containsTag_nil, hne]

/-- C10 witness: `fetch owner/repo` with tag filter ["cli"] considers no
repository. -/
theorem c10_witness :
    (∀ repo ∈ (resolveFetchArg [] "owner/repo").1, repo.tags = []) ∧
    preflightSelect (resolveFetchArg [] "owner/repo").1
      (resolveFetchArg [] "owner/repo").2 ["cli"] = [] :=
  c10_tag_filter_excludes_synthetic [] "owner/repo" ["cli"] (by decide) (by decide)
